import Mathlib

/-!
Shallow embedding of the OCR bank-statement transaction parser
(`extraction_script.py`): section isolation, the amount regex and
splitter, the line-classification / record-assembly loop, and the
OCR-correction pass, together with theorems settling the spec claims.

Strings are modelled as `List Char`.  The two regular expressions of the
source (`DATE_LINE_RE`, `AMOUNT_RE`) are deterministic on every input
(each is a chain of greedy character-class runs followed by literals, so
backtracking can never succeed where the maximal munch fails); they are
embedded as maximal-munch scanners.  The regex classes `\s` and `\d` are
modelled at ASCII level.
-/

namespace BankExtract

/-- ASCII whitespace, as in Python's `str.strip` and the regex class `\s`. -/
def isPySpace (c : Char) : Bool :=
  c == ' ' || c == '\t' || c == '\n' || c == '\r' || c == '\x0b' || c == '\x0c'

/-- Python `str.strip()`: remove leading and trailing whitespace. -/
def pyStrip (l : List Char) : List Char :=
  ((l.dropWhile isPySpace).reverse.dropWhile isPySpace).reverse

/-- Python's substring test `needle in hay`. -/
def containsSub (needle : List Char) : List Char → Bool
  | [] => needle.isEmpty
  | c :: t => needle.isPrefixOf (c :: t) || containsSub needle t

/-- Characters matched by the class `[\d,]` of `AMOUNT_RE`. -/
def isAmtChar (c : Char) : Bool :=
  c.isDigit || c == ','

/-- One attempted match of `AMOUNT_RE` = `[\d,]+\.\d{2}(?:DR)?` at the head of
the input: maximal `[\d,]` run, a dot, two digits, optional literal `DR`.
Returns the matched token and the remaining input. -/
def matchAmount (l : List Char) : Option (List Char × List Char) :=
  if (l.takeWhile isAmtChar).isEmpty then none
  else
    match l.dropWhile isAmtChar with
    | dot :: d1 :: d2 :: rest2 =>
      if dot = '.' then
        if d1.isDigit && d2.isDigit then
          if rest2.take 2 = [ 'D', 'R'] then
            some (l.takeWhile isAmtChar ++ dot :: d1 :: d2 :: 'D' :: 'R' :: [], rest2.drop 2)
          else
            some (l.takeWhile isAmtChar ++ [ dot, d1, d2], rest2)
        else none
      else none
    | _ => none

/-- Fueled scanner for `AMOUNT_RE.findall`: left-to-right, non-overlapping. -/
def findAmountsF : Nat → List Char → List (List Char)
  | 0, _ => []
  | _ + 1, [] => []
  | fuel + 1, c :: rest =>
    match matchAmount (c :: rest) with
    | some (tok, rest2) => tok :: findAmountsF fuel rest2
    | none => findAmountsF fuel rest

/-- The scan `AMOUNT_RE.findall(text)`.  Each scanner step consumes at least
one character, so `text.length` is always enough fuel. -/
def findAmounts (l : List Char) : List (List Char) :=
  findAmountsF l.length l

/-- Python `hay.rfind(needle)`: the largest index at which `needle` occurs,
or `none` when it does not occur. -/
def pyRfind (needle hay : List Char) : Option Nat :=
  ((List.range (hay.length + 1)).filter (fun i => needle.isPrefixOf (hay.drop i))).getLast?

/-- The body of the removal loop of `_split_amounts`: remove the rightmost
occurrence of `needle` if there is one (`rfind` then slice). -/
def removeRightmost (needle hay : List Char) : List Char :=
  match pyRfind needle hay with
  | none => hay
  | some i => hay.take i ++ hay.drop (i + needle.length)

/-- Fueled Python `str.replace`: replace every non-overlapping occurrence,
left to right. -/
def pyReplaceF (needle repl : List Char) : Nat → List Char → List Char
  | 0, hay => hay
  | _ + 1, [] => []
  | fuel + 1, c :: rest =>
    if !needle.isEmpty && needle.isPrefixOf (c :: rest) then
      repl ++ pyReplaceF needle repl fuel ((c :: rest).drop needle.length)
    else
      c :: pyReplaceF needle repl fuel rest

/-- Python `hay.replace(needle, repl)` (for a non-empty needle, as at every
call site of the source). -/
def pyReplace (needle repl hay : List Char) : List Char :=
  pyReplaceF needle repl hay.length hay

/-- The splitter `_split_amounts(text)`: returns (description, amount, balance).
With two or more amount tokens the last two are amount and balance and the
rightmost occurrence of each is removed from the text; with exactly one it
is the balance and all its occurrences are removed (`str.replace`); with
none the text is only stripped. -/
def split_amounts (text : List Char) : List Char × List Char × List Char :=
  if 2 ≤ (findAmounts text).length then
    (pyStrip (((findAmounts text).drop ((findAmounts text).length - 2)).foldl
        (fun d a => removeRightmost a d) text),
      (findAmounts text).getD ((findAmounts text).length - 2) [],
      (findAmounts text).getD ((findAmounts text).length - 1) [])
  else if (findAmounts text).length = 1 then
    (pyStrip (pyReplace ((findAmounts text).getD 0 []) [] text), [],
      (findAmounts text).getD 0 [])
  else (pyStrip text, [], [])

/-- The section start marker of `isolate_transactions`. -/
def mStart : List Char := "Balance Carried Forward".toList

/-- First footer marker. -/
def mFoot1 : List Char := "We find ways".toList

/-- Second footer marker. -/
def mFoot2 : List Char := "Please review".toList

/-- A line on which the scan of `isolate_transactions` breaks. -/
def isFooter (l : List Char) : Bool :=
  containsSub mFoot1 l || containsSub mFoot2 l

/-- The scan loop of `isolate_transactions`: walks the lines with the running
index, updating `start_idx` on every line containing the start marker and
breaking on the first footer line; returns `(start_idx, end_idx)`. -/
def isoScan : List (List Char) → Nat → Option Nat → Option Nat × Nat
  | [], i, s => (s, i)
  | l :: rest, i, s =>
    if isFooter l then ((if containsSub mStart l then some (i + 1) else s), i)
    else isoScan rest (i + 1) (if containsSub mStart l then some (i + 1) else s)

/-- The function `isolate_transactions(lines)` on an already split line list:
`none` models
the raised `ValueError` when the start marker was never seen; otherwise the
slice `lines[start:end]` with blank lines removed. -/
def isolate_transactions (lines : List (List Char)) : Option (List (List Char)) :=
  match isoScan lines 0 none with
  | (none, _) => none
  | (some s, e) => some (((lines.drop s).take (e - s)).filter (fun l => !(pyStrip l).isEmpty))

/-- One output record of the parser (the dict built by `parse_transactions`). -/
structure Transaction where
  date_posted : List Char
  value_date : List Char
  cheque_number : List Char
  description : List Char
  amount : List Char
  balance : List Char
deriving Repr, DecidableEq

/-- A transaction with every field empty (used as a `getD` fallback). -/
def defaultTx : Transaction :=
  { date_posted := [], value_date := [], cheque_number := [], description := [],
    amount := [], balance := [] }

/-- The prefix matcher shared by `DATE_LINE_RE` and the value-date regex:
`(\d{1,2}\s+MAY)` at the start of the line.  Both regexes are deterministic:
the digit run is maximal (a shorter take is followed by a digit, never by
whitespace) and so is each whitespace run.  Returns the captured date token
and the input after the literal `MAY`. -/
def matchDatePrefix (l : List Char) : Option (List Char × List Char) :=
  if 1 ≤ (l.takeWhile Char.isDigit).length ∧ (l.takeWhile Char.isDigit).length ≤ 2 ∧
      1 ≤ ((l.dropWhile Char.isDigit).takeWhile isPySpace).length ∧
      ((l.dropWhile Char.isDigit).dropWhile isPySpace).take 3 = [ 'M', 'A', 'Y'] then
    some (l.takeWhile Char.isDigit ++ (l.dropWhile Char.isDigit).takeWhile isPySpace
        ++ [ 'M', 'A', 'Y'],
      ((l.dropWhile Char.isDigit).dropWhile isPySpace).drop 3)
  else none

/-- Matching `DATE_LINE_RE` = `^(\d{1,2}\s+MAY)\s+(.*)`: the date token must be
followed by at least one whitespace character; returns (group 1, group 2). -/
def dateLineMatch (l : List Char) : Option (List Char × List Char) :=
  match matchDatePrefix l with
  | none => none
  | some (tok, r3) =>
    if 1 ≤ (r3.takeWhile isPySpace).length then some (tok, r3.dropWhile isPySpace)
    else none

/-- The value-date regex `(\d{1,2}\s+MAY)\s*(.*)` of `parse_transactions`
(here `\s*` makes the trailing whitespace optional). -/
def vdMatch (l : List Char) : Option (List Char × List Char) :=
  match matchDatePrefix l with
  | none => none
  | some (tok, r3) => some (tok, r3.dropWhile isPySpace)

/-- The literal phrase of the opening-balance special case. -/
def bfPhrase : List Char := "B/F Balance".toList

/-- Building the new current record from a date line: `dp` is group 1 of
`DATE_LINE_RE`, `g2` its group 2; mirrors the body of the `if match:` branch
of `parse_transactions`. -/
def newRecord (dp g2 : List Char) : Transaction :=
  if containsSub bfPhrase (pyStrip g2) then
    { date_posted := dp, value_date := bfPhrase, cheque_number := [],
      description := [], amount := [], balance := (split_amounts (pyStrip g2)).2.2 }
  else
    match vdMatch (pyStrip g2) with
    | some (vd, rem) =>
      { date_posted := dp, value_date := vd, cheque_number := [],
        description := (split_amounts (pyStrip rem)).1,
        amount := (split_amounts (pyStrip rem)).2.1,
        balance := (split_amounts (pyStrip rem)).2.2 }
    | none =>
      { date_posted := dp, value_date := [], cheque_number := [],
        description := (split_amounts (pyStrip g2)).1,
        amount := (split_amounts (pyStrip g2)).2.1,
        balance := (split_amounts (pyStrip g2)).2.2 }

/-- Appending a continuation line to the open record's description
(space-joined unless the description is still empty). -/
def appendDesc (t : Transaction) (s : List Char) : Transaction :=
  if t.description.isEmpty then { t with description := s }
  else { t with description := t.description ++ ' ' :: s }

/-- Sealing the open record: `transactions.append(current)` guarded by
`current is not None`. -/
def sealCur : Option Transaction → List Transaction
  | none => []
  | some c => [c]

/-- The line loop of `parse_transactions`: `cur` is the open record (Python's
`current`), sealed in front of the remaining output when a new date line
arrives and at end of input; a continuation line updates the open record if
there is one and is ignored otherwise. -/
def parseGo : Option Transaction → List (List Char) → List Transaction
  | cur, [] => sealCur cur
  | cur, line :: rest =>
    if (pyStrip line).isEmpty then parseGo cur rest
    else
      match dateLineMatch (pyStrip line) with
      | some (dp, g2) => sealCur cur ++ parseGo (some (newRecord dp g2)) rest
      | none => parseGo (cur.map (fun c => appendDesc c (pyStrip line))) rest

/-- The record assembler `parse_transactions(lines)`. -/
def parse_transactions (lines : List (List Char)) : List Transaction :=
  parseGo none lines

/-- The `OCR_CORRECTIONS` table, in source (= Python dict insertion) order. -/
def OCR_CORRECTIONS : List (List Char × List Char) :=
  [( "IBITW".toList, "IBTW".toList),
   ( "POB IBFT BN-20240527-13444432".toList, "POB IBFT BN-20240527-1344432".toList),
   ( "024148444432".toList, "02414980440".toList),
   ( "024149890440".toList, "02414980440".toList),
   ( "480752480752".toList, "487052487052".toList),
   ( "FT SA-CA DIGIFI POB".toList, "FT SA-CA DIGIT POP".toList),
   ( "PC-NDBMOB-20240529-14491015".toList, "PC-NBDB02-20240529-14491015".toList)]

/-- The `LEADING_SPACE_DESCRIPTIONS` table (keyed on the whole description). -/
def LEADING_SPACE_DESCRIPTIONS : List (List Char × List Char) :=
  [( "102440020794 9 IBTD 515549515549".toList,
     " 102440020794 9 IBTD 515549515549".toList)]

/-- The per-description body of `apply_corrections`: sequential global
substring replacements, then the exact full-string lookup. -/
def applyCorrectionsDesc (desc : List Char) : List Char :=
  match LEADING_SPACE_DESCRIPTIONS.find?
      (fun p => p.1 == OCR_CORRECTIONS.foldl (fun acc q => pyReplace q.1 q.2 acc) desc) with
  | some p => p.2
  | none => OCR_CORRECTIONS.foldl (fun acc q => pyReplace q.1 q.2 acc) desc

/-- The pass `apply_corrections(transactions)`: rewrite the description of every
record in place. -/
def apply_corrections (ts : List Transaction) : List Transaction :=
  ts.map (fun t => { t with description := applyCorrectionsDesc t.description })

/-- Full-match recognition by `AMOUNT_RE`: the matcher consumes the entire
string and returns it as the token. -/
def amountFullMatch (s : List Char) : Bool :=
  match matchAmount s with
  | some (tok, rest) => if tok = s ∧ rest = [] then true else false
  | none => false

/-- Modelled from the claim wording of C8: an integer part made of one or
more digit groups separated by commas. -/
def digitGroups (l : List Char) : Bool :=
  (l.splitOn ',').all (fun g => !g.isEmpty && g.all Char.isDigit)

/-- Core of a reversed token: two fractional digits, then the dot, then the
reversed integer part, which must pass `intPart` once un-reversed. -/
def revCoreWith (intPart : List Char → Bool) : List Char → Bool
  | d2 :: d1 :: dot :: revInt =>
    d2.isDigit && d1.isDigit && decide (dot = '.') && intPart revInt.reverse
  | _ => false

/-- Modelled from the claim wording of C8: a token is one or more digit
groups separated by commas, a decimal point, exactly two fractional digits,
and an optional literal suffix `DR`. -/
def claimedAmountToken (s : List Char) : Bool :=
  if s.reverse.take 2 = [ 'R', 'D'] then revCoreWith digitGroups (s.reverse.drop 2)
  else revCoreWith digitGroups s.reverse

/-- The amended integer-part grammar: any non-empty string of digits and
commas, in any arrangement. -/
def amendedIntPart (l : List Char) : Bool :=
  !l.isEmpty && l.all isAmtChar

/-- Amended wording of C8: one or more characters each a digit or a comma,
a decimal point, exactly two fractional digits, optional literal `DR`. -/
def amendedAmountToken (s : List Char) : Bool :=
  if s.reverse.take 2 = [ 'R', 'D'] then revCoreWith amendedIntPart (s.reverse.drop 2)
  else revCoreWith amendedIntPart s.reverse

/-- The start-index tracking of the scan of `isolate_transactions`, on its
own: the last marker line seen so far determines the start. -/
def scanS : List (List Char) → Nat → Option Nat → Option Nat
  | [], _, s => s
  | l :: t, i, s => scanS t (i + 1) (if containsSub mStart l then some (i + 1) else s)

/-- Whitespace, the literal `MAY`, then at least one further whitespace
character: the tail of the amended start-of-record shape. -/
def hasWsMayWs : List Char → Bool
  | [] => false
  | c :: rest =>
    isPySpace c &&
      (decide ((rest.dropWhile isPySpace).take 3 = [ 'M', 'A', 'Y']) &&
        match (rest.dropWhile isPySpace).drop 3 with
        | c2 :: _ => isPySpace c2
        | [] => false)

/-- Amended wording of C5: a line starts a record exactly when it begins
with a one- or two-digit day, whitespace, the token `MAY`, and at least one
whitespace character after the token. -/
def startShapeB : List Char → Bool
  | [] => false
  | c1 :: r1 =>
    c1.isDigit &&
      match r1 with
      | [] => false
      | c2 :: r2 => if c2.isDigit then hasWsMayWs r2 else hasWsMayWs (c2 :: r2)

/-- The exact shape of a string fully matched by `AMOUNT_RE`: a non-empty
run of digits and commas, a dot, two digits, and an optional `DR` suffix. -/
def AmtShape (s : List Char) : Prop :=
  ∃ run d1 d2 suf, s = run ++ '.' :: d1 :: d2 :: suf ∧ run ≠ [] ∧
    (∀ c ∈ run, isAmtChar c = true) ∧ d1.isDigit = true ∧ d2.isDigit = true ∧
    (suf = [] ∨ suf = [ 'D', 'R'])

/-! ## Theorems -/

/-- The scan of `isolate_transactions` never produces a start index when no
line contains the start marker. -/
lemma isoScan_fst_none : ∀ (lines : List (List Char)) (i : Nat),
    (∀ l ∈ lines, containsSub mStart l = false) → (isoScan lines i none).1 = none
  | [], _, _ => rfl
  | l :: rest, i, h => by
    have hl : containsSub mStart l = false := h l (List.mem_cons_self l rest)
    cases hf : isFooter l with
    | true => simp [isoScan, hf, hl]
    | false =>
      simp only [isoScan, hf, hl, if_false, Bool.false_eq_true]
      exact isoScan_fst_none rest (i + 1) (fun x hx => h x (List.mem_cons_of_mem l hx))

/-- C4: when no input line contains the phrase "Balance Carried Forward",
`isolate_transactions` signals the layout error (modelled as `none`) rather
than returning any line sequence. -/
theorem claim4_isolate_error (lines : List (List Char))
    (h : ∀ l ∈ lines, containsSub mStart l = false) :
    isolate_transactions lines = none := by
  have h1 := isoScan_fst_none lines 0 h
  unfold isolate_transactions
  cases heq : isoScan lines 0 none with
  | mk s e =>
    rw [heq] at h1
    cases s with
    | none => rfl
    | some v => exact absurd h1 (by simp)

/-- Witness for C4 at a concrete two-line document without the marker. -/
theorem claim4_witness :
    isolate_transactions [ "hello".toList, "world".toList] = none :=
  claim4_isolate_error _ (by decide)

/-- C6: the two-line scenario yields exactly one sealed record, with the
continuation line space-joined onto the description. -/
theorem claim6_scenario :
    parse_transactions
        [ "15 MAY 15 MAY PAYMENT FROM CLIENT A 1,000.00 10,053.38".toList,
          "continued note".toList] =
      [{ date_posted := "15 MAY".toList, value_date := "15 MAY".toList,
         cheque_number := [], description := "PAYMENT FROM CLIENT A continued note".toList,
         amount := "1,000.00".toList, balance := "10,053.38".toList }] := by
  decide

/-- C7: a date line whose remainder contains "B/F Balance" and holds exactly
one monetary token produces the opening-balance record: value date forced to
"B/F Balance", cheque number, description and amount empty, balance the
single token. -/
theorem claim7_bf_row (l dp g2 b : List Char)
    (h1 : dateLineMatch (pyStrip l) = some (dp, g2))
    (h2 : containsSub bfPhrase (pyStrip g2) = true)
    (h3 : findAmounts (pyStrip g2) = [b]) :
    parse_transactions [l] =
      [{ date_posted := dp, value_date := bfPhrase, cheque_number := [],
         description := [], amount := [], balance := b }] := by
  have hne : (pyStrip l).isEmpty = false := by
    cases hemp : (pyStrip l).isEmpty
    · rfl
    · exfalso
      have hnil : pyStrip l = [] := by simpa using hemp
      rw [hnil] at h1
      simp [dateLineMatch, matchDatePrefix] at h1
  have hstep : parse_transactions [l] = [newRecord dp g2] := by
    simp [parse_transactions, parseGo, hne, h1, sealCur]
  rw [hstep]
  unfold newRecord
  rw [h2]
  simp only [if_true]
  unfold split_amounts
  rw [h3]
  simp

/-- Witness for C7: the concrete scenario line "01 MAY B/F Balance 9,053.38". -/
theorem claim7_witness :
    parse_transactions [ "01 MAY B/F Balance 9,053.38".toList] =
      [{ date_posted := "01 MAY".toList, value_date := "B/F Balance".toList,
         cheque_number := [], description := [], amount := [],
         balance := "9,053.38".toList }] :=
  claim7_bf_row "01 MAY B/F Balance 9,053.38".toList "01 MAY".toList
    "B/F Balance 9,053.38".toList "9,053.38".toList (by decide) (by decide) (by decide)

/-- C1 counterexample: the fragment "1.00 11.00" holds exactly the two
well-formed tokens "1.00" and "11.00", yet the description remainder,
"1.00 1", still contains the amount token as a substring: the rightmost
occurrence of "1.00" sat inside "11.00". -/
theorem claim1_counterexample :
    findAmounts "1.00 11.00".toList = [ "1.00".toList, "11.00".toList] ∧
    split_amounts "1.00 11.00".toList = ( "1.00 1".toList, "1.00".toList, "11.00".toList) ∧
    containsSub "1.00".toList (split_amounts "1.00 11.00".toList).1 = true :=
  ⟨by decide, by decide, by decide⟩

/-- C2 counterexample: with marker lines at indices 0 and 2, the scan keeps
the LAST marker, so the result is ["b"], not the lines after the first
marker line. -/
theorem claim2_counterexample :
    isolate_transactions [ "Balance Carried Forward".toList, "a".toList,
        "Balance Carried Forward".toList, "b".toList] = some [ "b".toList] ∧
    some [ "b".toList] ≠
      some [ "a".toList, "Balance Carried Forward".toList, "b".toList] :=
  ⟨by decide, by decide⟩

/-- C3 counterexample: a footer line before the start marker stops the scan,
so the marker is never seen and the isolation errors instead of returning
["y"] as the claim's end-boundary rule would demand. -/
theorem claim3_counterexample :
    isolate_transactions [ "x".toList, "We find ways".toList,
        "Balance Carried Forward".toList, "y".toList] = none ∧
    (none : Option (List (List Char))) ≠ some [ "y".toList] :=
  ⟨by decide, by decide⟩

/-- C5 counterexample: the non-blank line "15 MAY" consists of exactly a
date token, yet `DATE_LINE_RE` rejects it (no trailing whitespace), so the
parser treats it as a continuation and emits no record. -/
theorem claim5_counterexample :
    dateLineMatch (pyStrip "15 MAY".toList) = none ∧
    (pyStrip "15 MAY".toList).isEmpty = false ∧
    parse_transactions [ "15 MAY".toList] = [] :=
  ⟨by decide, by decide, by decide⟩

/-- C8 counterexample: ",,.50" is recognized in full by `AMOUNT_RE` (and
found as a token by the scanner), though its integer part is commas only,
which the claimed grammar rejects. -/
theorem claim8_counterexample :
    amountFullMatch ",,.50".toList = true ∧
    findAmounts ",,.50".toList = [ ",,.50".toList] ∧
    claimedAmountToken ",,.50".toList = false :=
  ⟨by decide, by decide, by decide⟩

/-- A substring found nowhere in a list is neither a prefix nor found in the
tail. -/
lemma containsSub_cons_false {n : List Char} {c : Char} {t : List Char}
    (h : containsSub n (c :: t) = false) :
    n.isPrefixOf (c :: t) = false ∧ containsSub n t = false := by
  simpa [containsSub] using h

/-- Python replace is the identity when the needle occurs nowhere. -/
lemma pyReplaceF_of_not_contains (n r : List Char) :
    ∀ (fuel : Nat) (hay : List Char), containsSub n hay = false →
      pyReplaceF n r fuel hay = hay
  | 0, _, _ => rfl
  | _ + 1, [], _ => rfl
  | fuel + 1, c :: t, h => by
    obtain ⟨h1, h2⟩ := containsSub_cons_false h
    simp only [pyReplaceF, h1, Bool.and_false, Bool.false_eq_true, if_false]
    exact congrArg (c :: ·) (pyReplaceF_of_not_contains n r fuel t h2)

/-- Whole-string form: `hay.replace(needle, repl) = hay` when the needle is
absent. -/
lemma pyReplace_of_not_contains (n r hay : List Char)
    (h : containsSub n hay = false) : pyReplace n r hay = hay :=
  pyReplaceF_of_not_contains n r hay.length hay h

/-- The sequential replacement fold leaves a description alone when no key
of the table occurs in it. -/
lemma foldl_replace_id : ∀ (tbl : List (List Char × List Char)) (desc : List Char),
    (∀ p ∈ tbl, containsSub p.1 desc = false) →
    tbl.foldl (fun acc q => pyReplace q.1 q.2 acc) desc = desc
  | [], _, _ => rfl
  | p :: t, desc, h => by
    have hp := pyReplace_of_not_contains p.1 p.2 desc (h p (List.mem_cons_self p t))
    simp only [List.foldl_cons, hp]
    exact foldl_replace_id t desc (fun q hq => h q (List.mem_cons_of_mem p hq))

/-- The per-description correction pass is the identity on a description free
of every rule key. -/
lemma applyCorrectionsDesc_of_free (desc : List Char)
    (h1 : ∀ p ∈ OCR_CORRECTIONS, containsSub p.1 desc = false)
    (h2 : ∀ p ∈ LEADING_SPACE_DESCRIPTIONS, p.1 ≠ desc) :
    applyCorrectionsDesc desc = desc := by
  have hfold := foldl_replace_id OCR_CORRECTIONS desc h1
  unfold applyCorrectionsDesc
  rw [hfold]
  have hfind : LEADING_SPACE_DESCRIPTIONS.find? (fun p => p.1 == desc) = none := by
    rw [List.find?_eq_none]
    intro p hp
    simp [h2 p hp]
  rw [hfind]

/-- C9: `apply_corrections` is the identity on every record list whose
descriptions contain no key of the substring table and equal no key of the
full-string table. -/
theorem claim9_identity (ts : List Transaction)
    (h : ∀ t ∈ ts, (∀ p ∈ OCR_CORRECTIONS, containsSub p.1 t.description = false) ∧
        (∀ p ∈ LEADING_SPACE_DESCRIPTIONS, p.1 ≠ t.description)) :
    apply_corrections ts = ts := by
  induction ts with
  | nil => rfl
  | cons t rest ih =>
    obtain ⟨ht1, ht2⟩ := h t (List.mem_cons_self t rest)
    have hd := applyCorrectionsDesc_of_free t.description ht1 ht2
    have hrest := ih (fun x hx => h x (List.mem_cons_of_mem t hx))
    simp only [apply_corrections, List.map_cons] at hrest ⊢
    rw [hrest, hd]

/-- Witness for C9 at a record whose description matches no rule key. -/
theorem claim9_witness :
    apply_corrections [{ defaultTx with description := "OFFICE RENT MAY".toList }] =
      [{ defaultTx with description := "OFFICE RENT MAY".toList }] :=
  claim9_identity _ (by decide)

/-- C10: the correction pass preserves the number and order of records and
every field other than the description. -/
theorem claim10_frame (ts : List Transaction) (i : Nat) :
    (apply_corrections ts).length = ts.length ∧
    ((apply_corrections ts).getD i defaultTx).date_posted = (ts.getD i defaultTx).date_posted ∧
    ((apply_corrections ts).getD i defaultTx).value_date = (ts.getD i defaultTx).value_date ∧
    ((apply_corrections ts).getD i defaultTx).cheque_number
      = (ts.getD i defaultTx).cheque_number ∧
    ((apply_corrections ts).getD i defaultTx).amount = (ts.getD i defaultTx).amount ∧
    ((apply_corrections ts).getD i defaultTx).balance = (ts.getD i defaultTx).balance := by
  refine ⟨by simp [apply_corrections], ?_⟩
  have hmap : (apply_corrections ts).getD i defaultTx =
      ((ts.get? i).map
        (fun t => { t with description := applyCorrectionsDesc t.description })).getD
        defaultTx := by
    rw [List.getD_eq_getD_get?, apply_corrections, List.get?_map]
  rw [hmap, List.getD_eq_getD_get?]
  cases ts.get? i with
  | none => simp
  | some t => simp

/-- The tail of `getD` past a cons. -/
lemma getD_append_pair_left (pr : List (List Char)) (a b : List Char) :
    (pr ++ [a, b]).getD pr.length [] = a := by
  induction pr with
  | nil => rfl
  | cons x t ih => simpa [List.getD_cons_succ] using ih

/-- Indexing `getD` at the final position of an appended pair. -/
lemma getD_append_pair_right (pr : List (List Char)) (a b : List Char) :
    (pr ++ [a, b]).getD (pr.length + 1) [] = b := by
  induction pr with
  | nil => rfl
  | cons x t ih => simpa [List.getD_cons_succ] using ih

/-- C1 (amended): with at least two tokens, amount and balance are the
second-to-last and last tokens found, and the description remainder is the
fragment with the rightmost occurrence of the amount string removed, then
the rightmost occurrence of the balance string removed, then stripped. -/
theorem claim1_amended (t : List Char) (pr : List (List Char)) (a b : List Char)
    (h : findAmounts t = pr ++ [a, b]) :
    split_amounts t = (pyStrip (removeRightmost b (removeRightmost a t)), a, b) := by
  unfold split_amounts
  rw [h]
  rw [if_pos (by simp)]
  have hl2 : (pr ++ [a, b]).length - 2 = pr.length := by simp
  have hl1 : (pr ++ [a, b]).length - 1 = pr.length + 1 := by simp
  rw [hl2, hl1]
  rw [getD_append_pair_left, getD_append_pair_right]
  have hdrop : (pr ++ [a, b]).drop pr.length = [a, b] := List.drop_left pr [a, b]
  rw [hdrop]
  rfl

/-- Witness for C1 on the fragment "PAY 5.00 6.00". -/
theorem claim1_witness :
    split_amounts "PAY 5.00 6.00".toList =
      (pyStrip (removeRightmost "6.00".toList
        (removeRightmost "5.00".toList "PAY 5.00 6.00".toList)),
       "5.00".toList, "6.00".toList) :=
  claim1_amended "PAY 5.00 6.00".toList [] "5.00".toList "6.00".toList (by decide)

/-- Splitting a scan at an appended footer-free segment. -/
lemma isoScan_append (a : List (List Char)) :
    ∀ (rest : List (List Char)) (i : Nat) (s : Option Nat),
      (∀ l ∈ a, isFooter l = false) →
      isoScan (a ++ rest) i s = isoScan rest (i + a.length) (scanS a i s) := by
  induction a with
  | nil =>
    intro rest i s _
    simp [scanS]
  | cons l t ih =>
    intro rest i s h
    have hl : isFooter l = false := h l (List.mem_cons_self l t)
    simp only [List.cons_append, isoScan, hl, Bool.false_eq_true, if_false, scanS,
      List.append_eq]
    rw [ih rest (i + 1) _ (fun x hx => h x (List.mem_cons_of_mem l hx))]
    congr 1
    simp [Nat.add_comm, Nat.add_assoc, Nat.add_left_comm]

/-- The start tracking splits over appends. -/
lemma scanS_append : ∀ (a b : List (List Char)) (i : Nat) (s : Option Nat),
    scanS (a ++ b) i s = scanS b (i + a.length) (scanS a i s)
  | [], b, i, s => by simp [scanS]
  | l :: t, b, i, s => by
    simp only [List.cons_append, scanS, List.append_eq]
    rw [scanS_append t b (i + 1) _]
    congr 1
    simp [Nat.add_comm, Nat.add_assoc, Nat.add_left_comm]

/-- The start tracking is constant over marker-free segments. -/
lemma scanS_no_marker : ∀ (a : List (List Char)) (i : Nat) (s : Option Nat),
    (∀ l ∈ a, containsSub mStart l = false) → scanS a i s = s
  | [], _, _, _ => rfl
  | l :: t, i, s, h => by
    have hl : containsSub mStart l = false := h l (List.mem_cons_self l t)
    simp only [scanS, hl, Bool.false_eq_true, if_false]
    exact scanS_no_marker t (i + 1) s (fun x hx => h x (List.mem_cons_of_mem l hx))

/-- C2 (amended): with a marker line and no footer line anywhere, the result
is every non-blank line strictly after the LAST marker line (the scan
refreshes the start on every marker line). -/
theorem claim2_amended (pr post : List (List Char)) (lm : List Char)
    (hm : containsSub mStart lm = true)
    (hpost : ∀ l ∈ post, containsSub mStart l = false)
    (hnf : ∀ l ∈ pr ++ lm :: post, isFooter l = false) :
    isolate_transactions (pr ++ lm :: post) =
      some (post.filter (fun l => !(pyStrip l).isEmpty)) := by
  have hscan : isoScan (pr ++ lm :: post) 0 none =
      (scanS (pr ++ lm :: post) 0 none, (pr ++ lm :: post).length) := by
    have := isoScan_append (pr ++ lm :: post) [] 0 none hnf
    simpa [isoScan] using this
  have hstart : scanS (pr ++ lm :: post) 0 none = some (pr.length + 1) := by
    rw [scanS_append pr (lm :: post) 0 none]
    simp only [scanS, hm, if_true, Nat.zero_add]
    exact scanS_no_marker post (pr.length + 1) _ hpost
  rw [hstart] at hscan
  unfold isolate_transactions
  rw [hscan]
  have hdrop : (pr ++ lm :: post).drop (pr.length + 1) = post := by
    have h1 : pr ++ lm :: post = (pr ++ [lm]) ++ post := by simp
    have h2 : pr.length + 1 = (pr ++ [lm]).length := by simp
    rw [h1, h2]
    exact List.drop_left _ _
  have hlen : (pr ++ lm :: post).length - (pr.length + 1) = post.length := by
    simp only [List.length_append, List.length_cons]
    omega
  show some _ = some _
  rw [hdrop, hlen, List.take_length]

/-- Witness for C2: header, marker, one transaction line, one blank line. -/
theorem claim2_witness :
    isolate_transactions ([ "Page 1".toList] ++ "Balance Carried Forward".toList ::
        [ "01 MAY X".toList, "   ".toList]) =
      some ([ "01 MAY X".toList, "   ".toList].filter (fun l => !(pyStrip l).isEmpty)) :=
  claim2_amended [ "Page 1".toList] [ "01 MAY X".toList, "   ".toList]
    "Balance Carried Forward".toList (by decide) (by decide) (by decide)

/-- C3 (amended): the end boundary is the first footer line of the whole
input — the scan breaks there regardless of the start boundary, every line
after it is ignored, and only markers at or before it count. -/
theorem claim3_amended (a b post : List (List Char)) (lm f : List Char)
    (hm : containsSub mStart lm = true)
    (hb : ∀ l ∈ b, containsSub mStart l = false)
    (hf : isFooter f = true)
    (hfm : containsSub mStart f = false)
    (hnf : ∀ l ∈ a ++ lm :: b, isFooter l = false) :
    isolate_transactions (a ++ lm :: b ++ f :: post) =
      some (b.filter (fun l => !(pyStrip l).isEmpty)) := by
  have hassoc : a ++ lm :: b ++ f :: post = (a ++ lm :: b) ++ f :: post := by
    simp
  have hscan : isoScan (a ++ lm :: b ++ f :: post) 0 none =
      (scanS (a ++ lm :: b) 0 none, (a ++ lm :: b).length) := by
    rw [hassoc, isoScan_append (a ++ lm :: b) (f :: post) 0 none hnf]
    simp [isoScan, hf, hfm]
  have hstart : scanS (a ++ lm :: b) 0 none = some (a.length + 1) := by
    rw [scanS_append a (lm :: b) 0 none]
    simp only [scanS, hm, if_true, Nat.zero_add]
    exact scanS_no_marker b (a.length + 1) _ hb
  rw [hstart] at hscan
  unfold isolate_transactions
  rw [hscan]
  have hdrop : (a ++ lm :: b ++ f :: post).drop (a.length + 1) = b ++ f :: post := by
    have h1 : a ++ lm :: b ++ f :: post = (a ++ [lm]) ++ (b ++ f :: post) := by simp
    have h2 : a.length + 1 = (a ++ [lm]).length := by simp
    rw [h1, h2]
    exact List.drop_left _ _
  have hlen : (a ++ lm :: b).length - (a.length + 1) = b.length := by
    simp only [List.length_append, List.length_cons]
    omega
  show some _ = some _
  rw [hdrop, hlen, List.take_left]

/-- Witness for C3: a footer line cuts the section before trailing junk. -/
theorem claim3_witness :
    isolate_transactions ([ "hdr".toList] ++ "Balance Carried Forward".toList ::
        [ "02 MAY Y".toList] ++ "Please review".toList :: [ "junk".toList]) =
      some ([ "02 MAY Y".toList].filter (fun l => !(pyStrip l).isEmpty)) :=
  claim3_amended [ "hdr".toList] [ "02 MAY Y".toList] [ "junk".toList]
    "Balance Carried Forward".toList "Please review".toList
    (by decide) (by decide) (by decide) (by decide) (by decide)

/-- A take-while run is non-empty exactly when the head satisfies the
predicate. -/
lemma tw_len_pos_eq_head (p : Char → Bool) (x : List Char) :
    decide (1 ≤ (x.takeWhile p).length) =
      (match x with | c :: _ => p c | [] => false) := by
  cases x with
  | nil => simp
  | cons c t => cases h : p c <;> simp [List.takeWhile_cons, h]

/-- A digit is not a whitespace character. -/
lemma digit_not_pyspace (c : Char) (h : c.isDigit = true) : isPySpace c = false := by
  cases hs : isPySpace c
  · rfl
  · exfalso
    simp only [isPySpace, Bool.or_eq_true, beq_iff_eq] at hs
    rcases hs with ((((rfl | rfl) | rfl) | rfl) | rfl) | rfl <;> exact absurd h (by decide)

/-- The whitespace-MAY-whitespace condition of the date regex, as computed
by the embedded matcher, equals the amended shape predicate. -/
lemma wsMayWs_cond_eq (r : List Char) :
    (decide (1 ≤ (r.takeWhile isPySpace).length) &&
     (decide ((r.dropWhile isPySpace).take 3 = [ 'M', 'A', 'Y']) &&
      decide (1 ≤ ((((r.dropWhile isPySpace).drop 3)).takeWhile isPySpace).length))) =
      hasWsMayWs r := by
  cases r with
  | nil => simp [hasWsMayWs]
  | cons c t =>
    cases hc : isPySpace c with
    | false => simp [hasWsMayWs, List.takeWhile_cons, hc]
    | true =>
      simp only [hasWsMayWs, List.takeWhile_cons, List.dropWhile_cons, hc, if_true,
        List.length_cons, Bool.true_and]
      rw [tw_len_pos_eq_head]
      simp

/-- The date-line matcher succeeds exactly on the five regex conditions. -/
lemma dateLineMatch_isSome_cond (l : List Char) :
    (dateLineMatch l).isSome =
      (decide (1 ≤ (l.takeWhile Char.isDigit).length) &&
       (decide ((l.takeWhile Char.isDigit).length ≤ 2) &&
        (decide (1 ≤ ((l.dropWhile Char.isDigit).takeWhile isPySpace).length) &&
         (decide (((l.dropWhile Char.isDigit).dropWhile isPySpace).take 3 = [ 'M', 'A', 'Y']) &&
          decide (1 ≤ ((((l.dropWhile Char.isDigit).dropWhile isPySpace).drop 3).takeWhile isPySpace).length))))) := by
  unfold dateLineMatch matchDatePrefix
  by_cases h1 : 1 ≤ (l.takeWhile Char.isDigit).length ∧ (l.takeWhile Char.isDigit).length ≤ 2 ∧
      1 ≤ ((l.dropWhile Char.isDigit).takeWhile isPySpace).length ∧
      ((l.dropWhile Char.isDigit).dropWhile isPySpace).take 3 = [ 'M', 'A', 'Y']
  · obtain ⟨ha, hb, hc, hd⟩ := h1
    rw [if_pos ⟨ha, hb, hc, hd⟩]
    by_cases h2 : 1 ≤ ((((l.dropWhile Char.isDigit).dropWhile isPySpace).drop 3).takeWhile isPySpace).length
    · simp [ha, hb, hc, hd, h2]
    · simp [h2]
  · rw [if_neg h1]
    cases hR : (decide (1 ≤ (l.takeWhile Char.isDigit).length) &&
       (decide ((l.takeWhile Char.isDigit).length ≤ 2) &&
        (decide (1 ≤ ((l.dropWhile Char.isDigit).takeWhile isPySpace).length) &&
         (decide (((l.dropWhile Char.isDigit).dropWhile isPySpace).take 3 = [ 'M', 'A', 'Y']) &&
          decide (1 ≤ ((((l.dropWhile Char.isDigit).dropWhile isPySpace).drop 3).takeWhile isPySpace).length))))) with
    | false => rfl
    | true =>
      exfalso
      simp only [Bool.and_eq_true, decide_eq_true_eq] at hR
      exact h1 ⟨hR.1, hR.2.1, hR.2.2.1, hR.2.2.2.1⟩

/-- The classification of `DATE_LINE_RE` coincides with the amended shape:
date token plus at least one trailing whitespace character. -/
lemma dateLineMatch_isSome_eq (l : List Char) :
    (dateLineMatch l).isSome = startShapeB l := by
  rw [dateLineMatch_isSome_cond]
  cases l with
  | nil => simp [startShapeB]
  | cons c1 r1 =>
    cases hc1 : c1.isDigit with
    | false => simp [startShapeB, List.takeWhile_cons, hc1]
    | true =>
      cases r1 with
      | nil => simp [startShapeB, List.takeWhile_cons, List.dropWhile_cons, hc1]
      | cons c2 r2 =>
        cases hc2 : c2.isDigit with
        | false =>
          have e1 : (c1 :: c2 :: r2).takeWhile Char.isDigit = [c1] := by
            simp [List.takeWhile_cons, hc1, hc2]
          have e2 : (c1 :: c2 :: r2).dropWhile Char.isDigit = c2 :: r2 := by
            simp [List.dropWhile_cons, hc1, hc2]
          rw [e1, e2, wsMayWs_cond_eq]
          simp [startShapeB, hc1, hc2]
        | true =>
          cases r2 with
          | nil =>
            simp [startShapeB, List.takeWhile_cons, List.dropWhile_cons, hc1, hc2,
              hasWsMayWs]
          | cons c3 r3 =>
            cases hc3 : c3.isDigit with
            | true =>
              have hns : isPySpace c3 = false := digit_not_pyspace c3 hc3
              have e1 : (c1 :: c2 :: c3 :: r3).takeWhile Char.isDigit
                  = c1 :: c2 :: c3 :: r3.takeWhile Char.isDigit := by
                simp [List.takeWhile_cons, hc1, hc2, hc3]
              have hB : decide (((c1 :: c2 :: c3 :: r3).takeWhile Char.isDigit).length ≤ 2)
                  = false := by
                rw [e1]
                exact decide_eq_false (by simp)
              rw [hB]
              simp [startShapeB, hc1, hc2, hasWsMayWs, hns]
            | false =>
              have e1 : (c1 :: c2 :: c3 :: r3).takeWhile Char.isDigit = [c1, c2] := by
                simp [List.takeWhile_cons, hc1, hc2, hc3]
              have e2 : (c1 :: c2 :: c3 :: r3).dropWhile Char.isDigit = c3 :: r3 := by
                simp [List.dropWhile_cons, hc1, hc2, hc3]
              rw [e1, e2, wsMayWs_cond_eq]
              simp [startShapeB, hc1, hc2]

/-- C5 (amended): a non-blank line opens a record exactly when it has the
amended start shape (date token plus at least one trailing whitespace
character); on a date line the open record is sealed and a fresh one opened;
any other line is appended to the open record's description and ignored when
no record is open. -/
theorem claim5_amended (l : List Char) (cur : Transaction) (rest : List (List Char))
    (hnb : (pyStrip l).isEmpty = false) :
    ((dateLineMatch (pyStrip l)).isSome = startShapeB (pyStrip l)) ∧
    parseGo (some cur) (l :: rest) =
      (match dateLineMatch (pyStrip l) with
       | some (dp, g2) => cur :: parseGo (some (newRecord dp g2)) rest
       | none => parseGo (some (appendDesc cur (pyStrip l))) rest) ∧
    parseGo none (l :: rest) =
      (match dateLineMatch (pyStrip l) with
       | some (dp, g2) => parseGo (some (newRecord dp g2)) rest
       | none => parseGo none rest) := by
  refine ⟨dateLineMatch_isSome_eq _, ?_, ?_⟩
  · cases h : dateLineMatch (pyStrip l) with
    | none => simp [parseGo, hnb, h]
    | some pr =>
      obtain ⟨dp, g2⟩ := pr
      simp [parseGo, hnb, h, sealCur]
  · cases h : dateLineMatch (pyStrip l) with
    | none => simp [parseGo, hnb, h]
    | some pr =>
      obtain ⟨dp, g2⟩ := pr
      simp [parseGo, hnb, h, sealCur]

/-- Witness for C5 on the continuation line "note line". -/
theorem claim5_witness :
    ((dateLineMatch (pyStrip "note line".toList)).isSome
        = startShapeB (pyStrip "note line".toList)) ∧
    parseGo (some defaultTx) [ "note line".toList] =
      (match dateLineMatch (pyStrip "note line".toList) with
       | some (dp, g2) => defaultTx :: parseGo (some (newRecord dp g2)) []
       | none => parseGo (some (appendDesc defaultTx (pyStrip "note line".toList))) []) ∧
    parseGo none [ "note line".toList] =
      (match dateLineMatch (pyStrip "note line".toList) with
       | some (dp, g2) => parseGo (some (newRecord dp g2)) []
       | none => parseGo none []) :=
  claim5_amended "note line".toList defaultTx [] (by decide)

/-- Splitting `takeWhile`/`dropWhile` at the first failing element. -/
lemma takeWhile_append_cons {α : Type} (p : α → Bool) (xs : List α) (y : α) (ys : List α)
    (hx : ∀ c ∈ xs, p c = true) (hy : p y = false) :
    (xs ++ y :: ys).takeWhile p = xs ∧ (xs ++ y :: ys).dropWhile p = y :: ys := by
  induction xs with
  | nil => simp [List.takeWhile_cons, List.dropWhile_cons, hy]
  | cons a t ih =>
    have ha : p a = true := hx a (List.mem_cons_self a t)
    have iht := ih (fun c hc => hx c (List.mem_cons_of_mem a hc))
    constructor
    · simp [List.takeWhile_cons, ha, iht.1]
    · simp [List.dropWhile_cons, ha, iht.2]

/-- A full `AMOUNT_RE` match decomposes into the token shape. -/
lemma amountFullMatch_shape (s : List Char) (h : amountFullMatch s = true) :
    AmtShape s := by
  unfold amountFullMatch at h
  cases hma : matchAmount s with
  | none => rw [hma] at h; simp at h
  | some pr =>
    obtain ⟨tok, rest⟩ := pr
    rw [hma] at h
    change (if tok = s ∧ rest = [] then true else false) = true at h
    by_cases hts : tok = s ∧ rest = []
    case neg => rw [if_neg hts] at h; simp at h
    obtain ⟨htok, hrest⟩ := hts
    unfold matchAmount at hma
    by_cases he : (s.takeWhile isAmtChar).isEmpty = true
    · rw [if_pos he] at hma; simp at hma
    · rw [if_neg he] at hma
      have hrun_ne : s.takeWhile isAmtChar ≠ [] := by
        simpa [List.isEmpty_iff] using he
      have hrun_mem : ∀ c ∈ s.takeWhile isAmtChar, isAmtChar c = true := by
        intro c hc
        exact List.mem_takeWhile_imp hc
      cases hdw : s.dropWhile isAmtChar with
      | nil => rw [hdw] at hma; simp at hma
      | cons dot t1 =>
        cases t1 with
        | nil => rw [hdw] at hma; simp at hma
        | cons d1 t2 =>
          cases t2 with
          | nil => rw [hdw] at hma; simp at hma
          | cons d2 rest2 =>
            rw [hdw] at hma
            change (if dot = '.' then
                if d1.isDigit && d2.isDigit then
                  if rest2.take 2 = [ 'D', 'R'] then
                    some (s.takeWhile isAmtChar ++ dot :: d1 :: d2 :: 'D' :: 'R' :: [],
                      rest2.drop 2)
                  else some (s.takeWhile isAmtChar ++ [ dot, d1, d2], rest2)
                else none
              else none) = some (tok, rest) at hma
            by_cases hdot : dot = '.'
            case neg => rw [if_neg hdot] at hma; simp at hma
            subst hdot
            rw [if_pos rfl] at hma
            have hdecomp : s = s.takeWhile isAmtChar ++ '.' :: d1 :: d2 :: rest2 := by
              conv_lhs => rw [← List.takeWhile_append_dropWhile (p := isAmtChar) (l := s)]
              rw [hdw]
            by_cases hdd : (d1.isDigit && d2.isDigit) = true
            case neg => rw [if_neg hdd] at hma; simp at hma
            rw [if_pos hdd] at hma
            obtain ⟨hd1, hd2⟩ := by simpa [Bool.and_eq_true] using hdd
            by_cases hDR : rest2.take 2 = [ 'D', 'R']
            · rw [if_pos hDR] at hma
              obtain ⟨htokeq, hresteq⟩ := by simpa using hma
              have hrest2 : rest2 = [ 'D', 'R'] := by
                have hta := List.take_append_drop 2 rest2
                rw [hDR, hresteq, hrest] at hta
                simpa using hta.symm
              rw [hrest2] at hdecomp
              exact ⟨s.takeWhile isAmtChar, d1, d2, [ 'D', 'R'], hdecomp, hrun_ne,
                hrun_mem, hd1, hd2, Or.inr rfl⟩
            · rw [if_neg hDR] at hma
              obtain ⟨htokeq, hresteq⟩ := by simpa using hma
              have hrest2 : rest2 = [] := hresteq.trans hrest
              rw [hrest2] at hdecomp
              exact ⟨s.takeWhile isAmtChar, d1, d2, [], hdecomp, hrun_ne, hrun_mem,
                hd1, hd2, Or.inl rfl⟩

/-- The token shape is fully matched by `AMOUNT_RE`. -/
lemma shape_amountFullMatch (s : List Char) (hs : AmtShape s) :
    amountFullMatch s = true := by
  obtain ⟨run, d1, d2, suf, hdecomp, hne, hmem, hd1, hd2, hsuf⟩ := hs
  have hdot : isAmtChar '.' = false := by decide
  obtain ⟨htw, hdw⟩ := takeWhile_append_cons isAmtChar run '.' (d1 :: d2 :: suf) hmem hdot
  subst hdecomp
  unfold amountFullMatch matchAmount
  rw [htw, hdw]
  rw [if_neg (by simpa [List.isEmpty_iff] using hne)]
  rcases hsuf with rfl | rfl
  · simp [hd1, hd2]
  · simp [hd1, hd2]

/-- The amended grammar decomposes into the token shape. -/
lemma amendedAmountToken_shape (s : List Char) (h : amendedAmountToken s = true) :
    AmtShape s := by
  unfold amendedAmountToken at h
  by_cases hDR : s.reverse.take 2 = [ 'R', 'D']
  · rw [if_pos hDR] at h
    cases hd : s.reverse.drop 2 with
    | nil => rw [hd] at h; simp [revCoreWith] at h
    | cons d2 t1 =>
      cases t1 with
      | nil => rw [hd] at h; simp [revCoreWith] at h
      | cons d1 t2 =>
        cases t2 with
        | nil => rw [hd] at h; simp [revCoreWith] at h
        | cons dot revInt =>
          rw [hd] at h
          simp only [revCoreWith, Bool.and_eq_true, decide_eq_true_eq] at h
          obtain ⟨⟨⟨hd2, hd1⟩, hdot⟩, hint⟩ := h
          subst hdot
          have hsrev : s.reverse = 'R' :: 'D' :: d2 :: d1 :: '.' :: revInt := by
            have hta := List.take_append_drop 2 s.reverse
            rw [hDR, hd] at hta
            simpa using hta.symm
          have hs : s = revInt.reverse ++ '.' :: d1 :: d2 :: [ 'D', 'R'] := by
            have hrr := congrArg List.reverse hsrev
            simpa using hrr
          simp only [amendedIntPart, Bool.and_eq_true] at hint
          refine ⟨revInt.reverse, d1, d2, [ 'D', 'R'], hs, ?_, ?_, hd1, hd2, Or.inr rfl⟩
          · intro hc
            rw [hc] at hint
            simp at hint
          · intro c hc
            have := hint.2
            rw [List.all_eq_true] at this
            exact this c hc
  · rw [if_neg hDR] at h
    cases hd : s.reverse with
    | nil => rw [hd] at h; simp [revCoreWith] at h
    | cons d2 t1 =>
      cases t1 with
      | nil => rw [hd] at h; simp [revCoreWith] at h
      | cons d1 t2 =>
        cases t2 with
        | nil => rw [hd] at h; simp [revCoreWith] at h
        | cons dot revInt =>
          rw [hd] at h
          simp only [revCoreWith, Bool.and_eq_true, decide_eq_true_eq] at h
          obtain ⟨⟨⟨hd2, hd1⟩, hdot⟩, hint⟩ := h
          subst hdot
          have hs : s = revInt.reverse ++ '.' :: d1 :: d2 :: [] := by
            have hrr := congrArg List.reverse hd
            simpa using hrr
          simp only [amendedIntPart, Bool.and_eq_true] at hint
          refine ⟨revInt.reverse, d1, d2, [], hs, ?_, ?_, hd1, hd2, Or.inl rfl⟩
          · intro hc
            rw [hc] at hint
            simp at hint
          · intro c hc
            have := hint.2
            rw [List.all_eq_true] at this
            exact this c hc

/-- The token shape satisfies the amended grammar. -/
lemma shape_amendedAmountToken (s : List Char) (hs : AmtShape s) :
    amendedAmountToken s = true := by
  obtain ⟨run, d1, d2, suf, hdecomp, hne, hmem, hd1, hd2, hsuf⟩ := hs
  have hallrun : run.all isAmtChar = true := List.all_eq_true.mpr hmem
  rcases hsuf with rfl | rfl
  · have hrev : s.reverse = d2 :: d1 :: '.' :: run.reverse := by
      rw [hdecomp]; simp
    have hd2ne : d2 ≠ 'R' := by
      intro hh
      rw [hh] at hd2
      exact absurd hd2 (by decide)
    unfold amendedAmountToken
    rw [hrev]
    rw [if_neg (by simp [hd2ne])]
    simp [revCoreWith, hd1, hd2, amendedIntPart, hne, hallrun]
  · have hrev : s.reverse = 'R' :: 'D' :: d2 :: d1 :: '.' :: run.reverse := by
      rw [hdecomp]; simp
    unfold amendedAmountToken
    rw [hrev]
    rw [if_pos (by simp)]
    simp [revCoreWith, hd1, hd2, amendedIntPart, hne, hallrun]

/-- C8 (amended): a string is recognized in full by `AMOUNT_RE` exactly when
it consists of one or more characters each a digit or a comma (in any
arrangement), a decimal point, exactly two fractional digits, and an
optional literal suffix `DR`. -/
theorem claim8_amended (s : List Char) : amountFullMatch s = amendedAmountToken s := by
  cases hA : amountFullMatch s with
  | true => exact (shape_amendedAmountToken s (amountFullMatch_shape s hA)).symm
  | false =>
    cases hB : amendedAmountToken s with
    | false => rfl
    | true =>
      have hcontra := shape_amountFullMatch s (amendedAmountToken_shape s hB)
      rw [hA] at hcontra
      exact absurd hcontra (by simp)

end BankExtract
